import Mathlib

/-!
Shallow embedding of `src/server.js` (the in-memory instance cache of the
pet-logger relay) together with theorems checking the specification's claims
about it.

Conventions of the embedding:
* A JavaScript `Map` is a list of key/value pairs in insertion order;
  `Map.set` on an existing key replaces the value in place, on a new key it
  appends at the end.
* A JSON number is an `Int`; a field that may be `undefined` is an `Option`.
* JavaScript comparisons against `undefined` (`undefined < n`, `undefined > n`,
  `undefined >= n`) are all `false`; these are modelled by the `js...` helpers.
* Times (`Date.now()`) are `Int` milliseconds; `Math.floor(x / 1000)` is
  modelled with `Int.fdiv` (floor division).
-/

namespace PetLogger

/-- The `animalData` object of a report body; every field may be absent. -/
structure AnimalData where
  displayName : Option String
  value : Option Int
  generation : Option String
  rarity : Option String
deriving Repr, DecidableEq

/-- The JSON body of a `POST /api/report` request, fields as destructured on
line 28 of `server.js`; each may be absent. -/
structure ReportBody where
  placeId : Option String
  gameInstanceId : Option String
  animalData : Option AnimalData
  timestamp : Option Int
  source : Option String
deriving Repr, DecidableEq

/-- A stored cache entry, the `instanceData` object built on lines 49-61 of
`server.js`.  `lastUpdated` is the cache-assigned receive time (ms);
`timestamp` is the producer-supplied time (seconds), defaulted at upsert. -/
structure InstanceData where
  placeId : String
  gameInstanceId : String
  animalData : AnimalData
  timestamp : Int
  source : String
  lastUpdated : Int
deriving Repr, DecidableEq

/-- The `gameInstances` map: key/value pairs in insertion order. -/
abbrev Cache := List (String × InstanceData)

def MAX_STORED_INSTANCES : Nat := 100

def INSTANCE_TTL : Int := 3600000

def MIN_VALUE : Int := 3000000

/-- JS `s` is falsy for a string: absent or empty. -/
def falsyStr : Option String → Bool
  | none => true
  | some s => s = ""

/-- JS `v < n` where `v` may be `undefined` (`undefined < n` is `false`). -/
def jsLtNum : Option Int → Int → Bool
  | none, _ => false
  | some v, n => v < n

/-- JS `v > n` where `v` may be `undefined` (`undefined > n` is `false`). -/
def jsGtNum : Option Int → Int → Bool
  | none, _ => false
  | some v, n => n < v

/-- JS `v >= n` where `v` may be `undefined` (`undefined >= n` is `false`). -/
def jsGeNum : Option Int → Int → Bool
  | none, _ => false
  | some v, n => n ≤ v

/-- JS `x || d` for an integer expression (absent / NaN / 0 are falsy). -/
def jsOrInt : Option Int → Int → Int
  | none, d => d
  | some 0, d => d
  | some n, _ => n

/-- JS `x || d` for a string expression (absent / empty are falsy). -/
def jsOrStr : Option String → String → String
  | none, d => d
  | some "", d => d
  | some s, _ => s

/-- Line 46: `const key = placeId + "_" + gameInstanceId`. -/
def jsKey (placeId gameInstanceId : String) : String :=
  placeId ++ "_" ++ gameInstanceId

/-- `Map.prototype.set`: replace in place when the key exists, else append. -/
def mapSet : Cache → String → InstanceData → Cache
  | [], k, v => [(k, v)]
  | (k', v') :: rest, k, v =>
      if k' = k then (k, v) :: rest else (k', v') :: mapSet rest k v

/-- `Map.prototype.delete`: remove the first pair with the given key. -/
def mapDelete : Cache → String → Cache
  | [], _ => []
  | (k', v') :: rest, k => if k' = k then rest else (k', v') :: mapDelete rest k

/-- `Map.prototype.get`: value of the first pair with the given key. -/
def mapLookup : Cache → String → Option InstanceData
  | [], _ => none
  | (k', v') :: rest, k => if k' = k then some v' else mapLookup rest k

/-- The `instanceData` object of lines 49-61: four `animalData` fields copied,
`timestamp = timestamp || Math.floor(Date.now() / 1000)`,
`source = source || "unknown"`, `lastUpdated = Date.now()`. -/
def instanceDataOf (placeId gameInstanceId : String) (a : AnimalData)
    (timestamp : Option Int) (source : Option String) (now : Int) : InstanceData :=
  { placeId := placeId
    gameInstanceId := gameInstanceId
    animalData :=
      { displayName := a.displayName
        value := a.value
        generation := a.generation
        rarity := a.rarity }
    timestamp := jsOrInt timestamp (Int.fdiv now 1000)
    source := jsOrStr source "unknown"
    lastUpdated := now }

/-- Lines 66-69: when `size > MAX_STORED_INSTANCES`, delete the first key. -/
def evictOldest (c : Cache) : Cache :=
  match c with
  | [] => []
  | (k0, _) :: _ => mapDelete c k0

/-- Lines 63-69: `set` followed by the size-cap eviction. -/
def storeEntry (c : Cache) (k : String) (d : InstanceData) : Cache :=
  let c1 := mapSet c k d
  if MAX_STORED_INSTANCES < c1.length then evictOldest c1 else c1

/-- Outcome of `POST /api/report` as seen by the caller. -/
inductive ReportResult where
  | missingFields
  | valueTooLow
  | stored (instanceId : String)
deriving Repr, DecidableEq

/-- Lines 26-86: the report handler.  Validation checks only that `placeId`,
`gameInstanceId` and `animalData` are truthy; then the `value < 3000000`
admission test; then upsert and eviction. -/
def report (c : Cache) (b : ReportBody) (now : Int) : Cache × ReportResult :=
  match b.placeId, b.gameInstanceId, b.animalData with
  | some placeId, some gameInstanceId, some animalData =>
      if placeId = "" ∨ gameInstanceId = "" then (c, .missingFields)
      else if jsLtNum animalData.value MIN_VALUE then (c, .valueTooLow)
      else
        let key := jsKey placeId gameInstanceId
        (storeEntry c key
          (instanceDataOf placeId gameInstanceId animalData b.timestamp b.source now),
         .stored key)
  | _, _, _ => (c, .missingFields)

/-- The stored entries in insertion order (`gameInstances.values()`). -/
def values (c : Cache) : List InstanceData := c.map Prod.snd

/-- The entry's `animalData.value`. -/
def valOf (d : InstanceData) : Option Int := d.animalData.value

/-- The sort comparator of line 97, `(a, b) => b.value - a.value`, with the
ECMAScript rule that a NaN comparator result is treated as `+0` (either
operand `undefined` makes the subtraction NaN). -/
def cmpJS (x y : InstanceData) : Int :=
  match valOf y, valOf x with
  | some b, some a => b - a
  | _, _ => 0

/-- Stable insertion of one element into a comparator-sorted list. -/
def insSorted (x : InstanceData) : List InstanceData → List InstanceData
  | [] => [x]
  | y :: ys => if cmpJS x y ≤ 0 then x :: y :: ys else y :: insSorted x ys

/-- `Array.prototype.sort` with the line-97 comparator: the stable sort. -/
def sortDesc : List InstanceData → List InstanceData
  | [] => []
  | x :: xs => insSorted x (sortDesc xs)

/-- `Array.prototype.slice(0, e)`: a negative end counts from the end. -/
def jsSliceTo (l : List InstanceData) (e : Int) : List InstanceData :=
  if e < 0 then l.take ((l.length : Int) + e).toNat else l.take e.toNat

/-- Lines 95-98: filter by `value >= minValue`, sort descending by value,
truncate with `slice(0, limit)`. -/
def query (c : Cache) (minValue limit : Int) : List InstanceData :=
  jsSliceTo (sortDesc ((values c).filter (fun d => jsGeNum (valOf d) minValue))) limit

/-- Lines 91-92: the request-level parameter defaulting
`parseInt(req.query.x) || default` (`none` models a NaN parse). -/
def instancesEndpoint (c : Cache) (minValueRaw limitRaw : Option Int) :
    List InstanceData :=
  query c (jsOrInt minValueRaw MIN_VALUE) (jsOrInt limitRaw 50)

/-- Lines 141-146: the scan of the best handler, carrying `bestInstance`
and `bestValue` (initially `null` and `0`), updating on strict `>`. -/
def bestLoop : List InstanceData → Option InstanceData → Int → Option InstanceData
  | [], bi, _ => bi
  | d :: rest, bi, bv =>
      match valOf d with
      | some v => if bv < v then bestLoop rest (some d) v else bestLoop rest bi bv
      | none => bestLoop rest bi bv

/-- Lines 127-171: the best handler (`null` early when the map is empty,
otherwise the strict-greater scan from `bestValue = 0`). -/
def best (c : Cache) : Option InstanceData :=
  if c.length = 0 then none else bestLoop (values c) none 0

/-- Lines 16-23: one tick of the periodic sweep, removing every entry with
`now - data.timestamp * 1000 > INSTANCE_TTL` (note: `timestamp`, the
producer-supplied seconds, not `lastUpdated`). -/
def sweepTick (now : Int) : Cache → Cache
  | [] => []
  | (k, d) :: rest =>
      if INSTANCE_TTL < now - d.timestamp * 1000 then sweepTick now rest
      else (k, d) :: sweepTick now rest

/-! ### Concrete objects used in counterexamples and witnesses -/

def animalDog : AnimalData := ⟨some "Dog", some 5000000, some "G1", some "rare"⟩

def animalCat : AnimalData := ⟨some "Cat", some 6000000, some "G2", some "epic"⟩

/-- An entry received at time 0 (so expired by receive time at `now = 3600001`). -/
def entryOld : InstanceData :=
  ⟨"p", "g", ⟨some "Dog", some 3000000, some "G1", some "r"⟩, 0, "unknown", 0⟩

def cacheOld : Cache := [("p_g", entryOld)]

/-- An entry whose producer-supplied `timestamp` is 1 s but which was received
at time 10,000,000 ms. -/
def entrySweep : InstanceData := ⟨"p", "g", animalDog, 1, "unknown", 10000000⟩

def bodyAB : ReportBody := ⟨some "a_b", some "c", some animalDog, none, none⟩

def bodyA : ReportBody := ⟨some "a", some "b_c", some animalCat, none, none⟩

def animalNoValue : AnimalData := ⟨some "Dog", none, some "G1", some "rare"⟩

def bodyNoValue : ReportBody := ⟨some "p", some "g", some animalNoValue, none, none⟩

def entryA : InstanceData :=
  ⟨"p1", "g1", ⟨some "A", some 3000000, none, none⟩, 0, "unknown", 0⟩

def entryB : InstanceData :=
  ⟨"p2", "g2", ⟨some "B", some 4000000, none, none⟩, 0, "unknown", 0⟩

def cacheTwo : Cache := [("p1_g1", entryA), ("p2_g2", entryB)]

/-! ### Counterexample theorems -/

/-- C1 fails on the code: at time 3600001 the sole cached entry was received
at time 0, hence is more than `INSTANCE_TTL` (3,600,000 ms) old, yet `query`
returns it and `best` returns it — neither performs any expiry check. -/
theorem claim_C1_counterexample :
    INSTANCE_TTL < (3600001 : Int) - entryOld.lastUpdated ∧
    query cacheOld MIN_VALUE 50 = [entryOld] ∧
    best cacheOld = some entryOld :=
  ⟨by decide, rfl, rfl⟩

/-- C2 fails on the code: `entrySweep` was received at time 10,000,000 ms
(age 0 at the sweep), so by the claim it must be left unchanged; but the sweep
compares `now - timestamp * 1000` with the producer-controlled `timestamp = 1`
and removes it. -/
theorem claim_C2_counterexample :
    (10000000 : Int) - entrySweep.lastUpdated ≤ INSTANCE_TTL ∧
    sweepTick 10000000 [("p_g", entrySweep)] = [] :=
  ⟨by decide, rfl⟩

/-- C4 fails on the code: the distinct pairs ("a_b", "c") and ("a", "b_c")
produce the same key "a_b_c", and reporting the second over the first replaces
the first entry instead of creating a second one. -/
theorem claim_C4_counterexample :
    jsKey "a_b" "c" = jsKey "a" "b_c" ∧
    (("a_b", "c") : String × String) ≠ ("a", "b_c") ∧
    (report (report [] bodyAB 1000).1 bodyA 2000).1 =
      [("a_b_c", instanceDataOf "a" "b_c" animalCat none none 2000)] :=
  ⟨rfl, by decide, rfl⟩

/-- C5 fails on the code: a body whose `animalData.value` is absent passes
validation (only `placeId`, `gameInstanceId`, `animalData` are checked), and
since `undefined < 3000000` is false it is even stored, mutating the cache. -/
theorem claim_C5_counterexample :
    (report [] bodyNoValue 5).2 = ReportResult.stored "p_g" ∧
    (report [] bodyNoValue 5).1 ≠ [] :=
  ⟨rfl, by decide⟩

/-- C7 fails on the code: the sole entry of `cacheOld` is expired at time
3600001 (received at time 0), so by the claim `best` should return null, but
`best` performs no expiry filtering and returns it. -/
theorem claim_C7_counterexample :
    INSTANCE_TTL < (3600001 : Int) - entryOld.lastUpdated ∧
    best cacheOld = some entryOld :=
  ⟨by decide, rfl⟩

/-- C8 fails on the code: with `limit = -1` (reachable, `parseInt` accepts
negative numbers) `slice(0, -1)` keeps all but the last element, so on a
two-entry cache the result has length 1, which is not at most -1. -/
theorem claim_C8_counterexample :
    query cacheTwo MIN_VALUE (-1) = [entryB] ∧
    ¬ (((query cacheTwo MIN_VALUE (-1)).length : Int) ≤ -1) :=
  ⟨rfl, by decide⟩

/-- C10: a raw `minValue` parameter that parses to 0 or fails to parse
(`none`, modelling NaN) is replaced by the default 3,000,000, and likewise a
raw `limit` of 0 or a failed parse is replaced by 50, so the endpoint behaves
exactly as if the parameter had been omitted. -/
theorem claim_C10_defaults (c : Cache) :
    jsOrInt (some 0) MIN_VALUE = MIN_VALUE ∧
    jsOrInt none MIN_VALUE = MIN_VALUE ∧
    jsOrInt (some 0) 50 = 50 ∧
    jsOrInt none 50 = 50 ∧
    instancesEndpoint c (some 0) (some 0) = instancesEndpoint c none none ∧
    instancesEndpoint c (some 0) none = query c MIN_VALUE 50 ∧
    instancesEndpoint c none (some 0) = query c MIN_VALUE 50 :=
  ⟨rfl, rfl, rfl, rfl, rfl, rfl, rfl⟩

/-! ### Validation (claim C5, amended) -/

/-- C5 (amended): `report` returns the missing-fields validation failure, with
the cache unchanged, exactly when `placeId`, `gameInstanceId` or `animalData`
is falsy (absent, or an empty string); `item.value` plays no part in
validation. -/
theorem claim_C5_amended (c : Cache) (b : ReportBody) (now : Int) :
    report c b now = (c, ReportResult.missingFields) ↔
      (falsyStr b.placeId || falsyStr b.gameInstanceId || b.animalData.isNone) = true := by
  obtain ⟨p, g, a, t, s⟩ := b
  cases p with
  | none => simp [report, falsyStr]
  | some p =>
    cases g with
    | none => simp [report, falsyStr]
    | some g =>
      cases a with
      | none => simp [report, falsyStr]
      | some a =>
        simp only [report, falsyStr, Option.isNone_some, Bool.or_false]
        by_cases hpg : p = "" ∨ g = ""
        · rw [if_pos hpg]
          simp only [true_iff, eq_self_iff_true]
          rcases hpg with h | h <;> simp [h]
        · rw [if_neg hpg]
          push_neg at hpg
          by_cases hv : jsLtNum a.value MIN_VALUE
          · simp [hv, hpg.1, hpg.2, Prod.ext_iff]
          · simp [hv, hpg.1, hpg.2, Prod.ext_iff]

/-! ### Map and store lemmas -/

theorem mapSet_eq_append (c : Cache) (k : String) (d : InstanceData)
    (h : k ∉ c.map Prod.fst) : mapSet c k d = c ++ [(k, d)] := by
  induction c with
  | nil => rfl
  | cons kv rest ih =>
    obtain ⟨k', v'⟩ := kv
    simp only [List.map_cons, List.mem_cons] at h
    push_neg at h
    simp [mapSet, Ne.symm h.1, ih h.2]

theorem mapSet_keys_of_mem (c : Cache) (k : String) (d : InstanceData)
    (h : k ∈ c.map Prod.fst) :
    (mapSet c k d).map Prod.fst = c.map Prod.fst := by
  induction c with
  | nil => simp at h
  | cons kv rest ih =>
    obtain ⟨k', v'⟩ := kv
    by_cases hk : k' = k
    · simp [mapSet, hk]
    · simp only [List.map_cons, List.mem_cons] at h
      rcases h with h | h
      · exact absurd h.symm hk
      · simp [mapSet, hk, ih h]

theorem mapSet_length_of_mem (c : Cache) (k : String) (d : InstanceData)
    (h : k ∈ c.map Prod.fst) : (mapSet c k d).length = c.length := by
  have := mapSet_keys_of_mem c k d h
  have h1 : ((mapSet c k d).map Prod.fst).length = (c.map Prod.fst).length := by
    rw [this]
  simpa using h1

theorem mapLookup_append_single (c : Cache) (k : String) (d : InstanceData)
    (h : k ∉ c.map Prod.fst) : mapLookup (c ++ [(k, d)]) k = some d := by
  induction c with
  | nil => simp [mapLookup]
  | cons kv rest ih =>
    obtain ⟨k', v'⟩ := kv
    simp only [List.map_cons, List.mem_cons] at h
    push_neg at h
    simp [mapLookup, Ne.symm h.1, ih h.2]

theorem mapSet_lookup_self (c : Cache) (k : String) (d : InstanceData) :
    mapLookup (mapSet c k d) k = some d := by
  induction c with
  | nil => simp [mapSet, mapLookup]
  | cons kv rest ih =>
    obtain ⟨k', v'⟩ := kv
    by_cases hk : k' = k
    · simp [mapSet, mapLookup, hk]
    · simp [mapSet, mapLookup, hk, ih]

theorem evictOldest_eq_tail (c : Cache) : evictOldest c = c.tail := by
  cases c with
  | nil => rfl
  | cons kv rest =>
    obtain ⟨k0, v0⟩ := kv
    simp [evictOldest, mapDelete]

/-- After `storeEntry` on a cache within the cap, the stored key maps to the
stored entry. -/
theorem storeEntry_lookup (c : Cache) (k : String) (d : InstanceData)
    (hc : c.length ≤ MAX_STORED_INSTANCES) :
    mapLookup (storeEntry c k d) k = some d := by
  unfold storeEntry
  by_cases hm : k ∈ c.map Prod.fst
  · have hlen : (mapSet c k d).length = c.length := mapSet_length_of_mem c k d hm
    rw [if_neg (by omega)]
    exact mapSet_lookup_self c k d
  · rw [mapSet_eq_append c k d hm]
    by_cases hover : MAX_STORED_INSTANCES < (c ++ [(k, d)]).length
    · rw [if_pos hover, evictOldest_eq_tail]
      cases c with
      | nil => simp [MAX_STORED_INSTANCES] at hover
      | cons kv rest =>
        obtain ⟨k', v'⟩ := kv
        simp only [List.cons_append, List.tail_cons]
        apply mapLookup_append_single
        intro hmem
        exact hm (by simp [hmem])
    · rw [if_neg hover]
      exact mapLookup_append_single c k d hm

/-- `storeEntry` never leaves the cache above the cap. -/
theorem storeEntry_length (c : Cache) (k : String) (d : InstanceData)
    (hc : c.length ≤ MAX_STORED_INSTANCES) :
    (storeEntry c k d).length ≤ MAX_STORED_INSTANCES := by
  unfold storeEntry
  by_cases hm : k ∈ c.map Prod.fst
  · have hlen : (mapSet c k d).length = c.length := mapSet_length_of_mem c k d hm
    rw [if_neg (by omega)]
    omega
  · rw [mapSet_eq_append c k d hm]
    have hlen : (c ++ [(k, d)]).length = c.length + 1 := by simp
    by_cases hover : MAX_STORED_INSTANCES < (c ++ [(k, d)]).length
    · rw [if_pos hover, evictOldest_eq_tail]
      simp only [List.length_tail]
      omega
    · rw [if_neg hover]
      omega

/-- `report` never leaves the cache above the cap. -/
theorem report_length (c : Cache) (b : ReportBody) (now : Int)
    (hc : c.length ≤ MAX_STORED_INSTANCES) :
    (report c b now).1.length ≤ MAX_STORED_INSTANCES := by
  unfold report
  cases hb : b.placeId with
  | none => simpa using hc
  | some p =>
    cases hg : b.gameInstanceId with
    | none => simpa using hc
    | some g =>
      cases ha : b.animalData with
      | none => simpa using hc
      | some a =>
        simp only
        by_cases hpg : p = "" ∨ g = ""
        · rw [if_pos hpg]; exact hc
        · rw [if_neg hpg]
          by_cases hv : jsLtNum a.value MIN_VALUE
          · simp only [if_pos hv]; exact hc
          · simp only [if_neg hv]
            exact storeEntry_length _ _ _ hc

def bodyDog : ReportBody := ⟨some "p", some "g", some animalDog, none, none⟩

/-- C6: a valid report below the 3,000,000 threshold is a successful no-op
(`valueTooLow`, cache untouched, `query`/`best` unchanged); a valid report at
or above the threshold is stored under its key. -/
theorem claim_C6_admission (c : Cache) (b : ReportBody) (now : Int)
    (p g : String) (a : AnimalData) (v : Int)
    (hp : b.placeId = some p) (hp2 : p ≠ "")
    (hg : b.gameInstanceId = some g) (hg2 : g ≠ "")
    (ha : b.animalData = some a) (hv : a.value = some v)
    (hc : c.length ≤ MAX_STORED_INSTANCES) :
    (v < MIN_VALUE →
      report c b now = (c, ReportResult.valueTooLow) ∧
      (∀ mv lim, query (report c b now).1 mv lim = query c mv lim) ∧
      best (report c b now).1 = best c) ∧
    (MIN_VALUE ≤ v →
      (report c b now).2 = ReportResult.stored (jsKey p g) ∧
      mapLookup (report c b now).1 (jsKey p g) =
        some (instanceDataOf p g a b.timestamp b.source now)) := by
  have hkey : ¬ (p = "" ∨ g = "") := by
    push_neg
    exact ⟨hp2, hg2⟩
  constructor
  · intro hlt
    have hlow : jsLtNum a.value MIN_VALUE = true := by
      rw [hv]
      simpa [jsLtNum] using hlt
    have he : report c b now = (c, ReportResult.valueTooLow) := by
      simp [report, hp, hg, ha, hkey, hlow]
    exact ⟨he, fun mv lim => by rw [he], by rw [he]⟩
  · intro hge
    have hlow : jsLtNum a.value MIN_VALUE = false := by
      rw [hv]
      simpa [jsLtNum] using hge
    have he : report c b now =
        (storeEntry c (jsKey p g)
          (instanceDataOf p g a b.timestamp b.source now),
         ReportResult.stored (jsKey p g)) := by
      simp [report, hp, hg, ha, hkey, hlow]
    rw [he]
    exact ⟨rfl, storeEntry_lookup c _ _ hc⟩

/-- Witness for C6 at a concrete report of value 5,000,000. -/
theorem claim_C6_admission_witness :
    (report [] bodyDog 7).2 = ReportResult.stored (jsKey "p" "g") ∧
    mapLookup (report [] bodyDog 7).1 (jsKey "p" "g") =
      some (instanceDataOf "p" "g" animalDog none none 7) := by
  have h := claim_C6_admission [] bodyDog 7 "p" "g" animalDog 5000000
    rfl (by decide) rfl (by decide) rfl rfl (by decide)
  exact h.2 (by decide)

/-! ### Capacity (claim C3) -/

theorem foldl_report_length (steps : List (ReportBody × Int)) (c : Cache)
    (hc : c.length ≤ MAX_STORED_INSTANCES) :
    (steps.foldl (fun acc sb => (report acc sb.1 sb.2).1) c).length ≤
      MAX_STORED_INSTANCES := by
  induction steps generalizing c with
  | nil => simpa using hc
  | cons sb rest ih =>
    simp only [List.foldl_cons]
    exact ih _ (report_length c sb.1 sb.2 hc)

/-- C3: starting from the empty cache, any finite sequence of `report` calls
leaves at most 100 entries; and when a fresh key is inserted into a full
cache, the evicted entry is the one at the oldest insertion-order position
(the head of the map), not the one with the oldest timestamp. -/
theorem claim_C3_capacity :
    (∀ steps : List (ReportBody × Int),
      (steps.foldl (fun acc sb => (report acc sb.1 sb.2).1) []).length ≤
        MAX_STORED_INSTANCES) ∧
    (∀ (c : Cache) (b : ReportBody) (now : Int) (p g : String) (a : AnimalData),
      b.placeId = some p → p ≠ "" → b.gameInstanceId = some g → g ≠ "" →
      b.animalData = some a → jsLtNum a.value MIN_VALUE = false →
      c.length = MAX_STORED_INSTANCES → jsKey p g ∉ c.map Prod.fst →
      (report c b now).1 =
        c.tail ++ [(jsKey p g, instanceDataOf p g a b.timestamp b.source now)]) := by
  constructor
  · intro steps
    exact foldl_report_length steps [] (by simp)
  · intro c b now p g a hp hp2 hg hg2 ha hlow hlen hnew
    have hkey : ¬ (p = "" ∨ g = "") := by
      push_neg
      exact ⟨hp2, hg2⟩
    have he : (report c b now).1 =
        storeEntry c (jsKey p g) (instanceDataOf p g a b.timestamp b.source now) := by
      simp [report, hp, hg, ha, hkey, hlow]
    rw [he]
    unfold storeEntry
    rw [mapSet_eq_append c _ _ hnew]
    have hover : MAX_STORED_INSTANCES <
        (c ++ [(jsKey p g, instanceDataOf p g a b.timestamp b.source now)]).length := by
      simp [hlen]
    rw [if_pos hover, evictOldest_eq_tail]
    cases c with
    | nil => simp [MAX_STORED_INSTANCES] at hlen
    | cons kv rest => simp

def cacheFull : Cache := List.replicate 100 ("x", entryOld)

/-- Witness for C3 at a concrete full cache of 100 entries. -/
theorem claim_C3_capacity_witness :
    (report cacheFull bodyDog 7).1 =
      cacheFull.tail ++ [(jsKey "p" "g", instanceDataOf "p" "g" animalDog none none 7)] := by
  apply claim_C3_capacity.2 cacheFull bodyDog 7 "p" "g" animalDog
    rfl (by decide) rfl (by decide) rfl (by decide)
    (by simp [cacheFull, MAX_STORED_INSTANCES])
  simp only [cacheFull, List.map_replicate, List.mem_replicate]
  decide

/-! ### Upsert (claim C9) -/

theorem mapLookup_mem (c : Cache) (k : String) (d : InstanceData)
    (h : mapLookup c k = some d) : k ∈ c.map Prod.fst := by
  induction c with
  | nil => simp [mapLookup] at h
  | cons kv rest ih =>
    obtain ⟨k', v'⟩ := kv
    by_cases hk : k' = k
    · simp [hk]
    · simp only [mapLookup, if_neg hk] at h
      simp [ih h]

theorem storeEntry_keys_nodup (c : Cache) (k : String) (d : InstanceData)
    (hnd : (c.map Prod.fst).Nodup) :
    ((storeEntry c k d).map Prod.fst).Nodup := by
  have h1 : ((mapSet c k d).map Prod.fst).Nodup := by
    by_cases hm : k ∈ c.map Prod.fst
    · rw [mapSet_keys_of_mem c k d hm]
      exact hnd
    · rw [mapSet_eq_append c k d hm]
      simp [List.nodup_append, hnd, hm]
  unfold storeEntry
  by_cases hover : MAX_STORED_INSTANCES < (mapSet c k d).length
  · rw [if_pos hover, evictOldest_eq_tail]
    exact ((List.tail_sublist _).map _).nodup h1
  · rw [if_neg hover]
    exact h1

/-- C9: two successful stores under the same composite key leave exactly one
entry for that key, every field of which (including the refreshed
`lastUpdated = now₂`) comes from the second call. -/
theorem claim_C9_upsert (c : Cache) (b₁ b₂ : ReportBody) (now₁ now₂ : Int)
    (p₁ g₁ p₂ g₂ : String) (a₁ a₂ : AnimalData)
    (hp₁ : b₁.placeId = some p₁) (hp₁n : p₁ ≠ "")
    (hg₁ : b₁.gameInstanceId = some g₁) (hg₁n : g₁ ≠ "")
    (ha₁ : b₁.animalData = some a₁) (hv₁ : jsLtNum a₁.value MIN_VALUE = false)
    (hp₂ : b₂.placeId = some p₂) (hp₂n : p₂ ≠ "")
    (hg₂ : b₂.gameInstanceId = some g₂) (hg₂n : g₂ ≠ "")
    (ha₂ : b₂.animalData = some a₂) (hv₂ : jsLtNum a₂.value MIN_VALUE = false)
    (hkey : jsKey p₁ g₁ = jsKey p₂ g₂)
    (hc : c.length ≤ MAX_STORED_INSTANCES) (hnd : (c.map Prod.fst).Nodup) :
    mapLookup (report (report c b₁ now₁).1 b₂ now₂).1 (jsKey p₂ g₂) =
      some (instanceDataOf p₂ g₂ a₂ b₂.timestamp b₂.source now₂) ∧
    ((report (report c b₁ now₁).1 b₂ now₂).1.map Prod.fst).count (jsKey p₂ g₂) = 1 := by
  have hkey₁ : ¬ (p₁ = "" ∨ g₁ = "") := by
    push_neg
    exact ⟨hp₁n, hg₁n⟩
  have hkey₂ : ¬ (p₂ = "" ∨ g₂ = "") := by
    push_neg
    exact ⟨hp₂n, hg₂n⟩
  have he₁ : (report c b₁ now₁).1 =
      storeEntry c (jsKey p₁ g₁)
        (instanceDataOf p₁ g₁ a₁ b₁.timestamp b₁.source now₁) := by
    simp [report, hp₁, hg₁, ha₁, hkey₁, hv₁]
  have he₂ : (report (report c b₁ now₁).1 b₂ now₂).1 =
      storeEntry (report c b₁ now₁).1 (jsKey p₂ g₂)
        (instanceDataOf p₂ g₂ a₂ b₂.timestamp b₂.source now₂) := by
    simp [report, hp₂, hg₂, ha₂, hkey₂, hv₂]
  have hc₁ : (report c b₁ now₁).1.length ≤ MAX_STORED_INSTANCES :=
    report_length c b₁ now₁ hc
  have hnd₁ : ((report c b₁ now₁).1.map Prod.fst).Nodup := by
    rw [he₁]
    exact storeEntry_keys_nodup _ _ _ hnd
  have hlook : mapLookup (report (report c b₁ now₁).1 b₂ now₂).1 (jsKey p₂ g₂) =
      some (instanceDataOf p₂ g₂ a₂ b₂.timestamp b₂.source now₂) := by
    rw [he₂]
    exact storeEntry_lookup _ _ _ hc₁
  have hnd₂ : ((report (report c b₁ now₁).1 b₂ now₂).1.map Prod.fst).Nodup := by
    rw [he₂]
    exact storeEntry_keys_nodup _ _ _ hnd₁
  have hmem : jsKey p₂ g₂ ∈ (report (report c b₁ now₁).1 b₂ now₂).1.map Prod.fst :=
    mapLookup_mem _ _ _ hlook
  refine ⟨hlook, ?_⟩
  exact List.count_eq_one_of_mem hnd₂ hmem

def bodyCat : ReportBody := ⟨some "p", some "g", some animalCat, some 42, some "src"⟩

/-- Witness for C9: two concrete stores under the key "p_g". -/
theorem claim_C9_upsert_witness :
    mapLookup (report (report [] bodyDog 7).1 bodyCat 9).1 (jsKey "p" "g") =
      some (instanceDataOf "p" "g" animalCat (some 42) (some "src") 9) ∧
    ((report (report [] bodyDog 7).1 bodyCat 9).1.map Prod.fst).count (jsKey "p" "g") = 1 :=
  claim_C9_upsert [] bodyDog bodyCat 7 9 "p" "g" "p" "g" animalDog animalCat
    rfl (by decide) rfl (by decide) rfl (by decide)
    rfl (by decide) rfl (by decide) rfl (by decide)
    rfl (by decide) (by decide)

/-! ### Sweep (claim C2, amended) -/

/-- C2 (amended): one sweep tick keeps exactly the entries whose
producer-suppliable `timestamp` (seconds, scaled by 1000) is within
`INSTANCE_TTL` of `now`, preserving their order; the cache-assigned
`lastUpdated` receive time plays no part. -/
theorem claim_C2_amended (now : Int) (c : Cache) :
    (∀ kv : String × InstanceData,
      kv ∈ sweepTick now c ↔
        kv ∈ c ∧ now - kv.2.timestamp * 1000 ≤ INSTANCE_TTL) ∧
    (sweepTick now c).Sublist c := by
  induction c with
  | nil => simp [sweepTick]
  | cons kv' rest ih =>
    obtain ⟨k, d⟩ := kv'
    by_cases hexp : INSTANCE_TTL < now - d.timestamp * 1000
    · constructor
      · intro kv
        rw [sweepTick, if_pos hexp, ih.1 kv]
        constructor
        · intro h
          exact ⟨List.mem_cons_of_mem _ h.1, h.2⟩
        · rintro ⟨hmem, harith⟩
          rcases List.mem_cons.mp hmem with heq | hm
          · subst heq
            have h2 : now - d.timestamp * 1000 ≤ INSTANCE_TTL := by
              simpa using harith
            omega
          · exact ⟨hm, harith⟩
      · rw [sweepTick, if_pos hexp]
        exact ih.2.cons _
    · constructor
      · intro kv
        rw [sweepTick, if_neg hexp]
        simp only [List.mem_cons]
        constructor
        · rintro (heq | hmem)
          · refine ⟨Or.inl heq, ?_⟩
            subst heq
            simpa using (show now - d.timestamp * 1000 ≤ INSTANCE_TTL by omega)
          · have h := (ih.1 kv).mp hmem
            exact ⟨Or.inr h.1, h.2⟩
        · rintro ⟨heq | hmem, harith⟩
          · exact Or.inl heq
          · exact Or.inr ((ih.1 kv).mpr ⟨hmem, harith⟩)
      · rw [sweepTick, if_neg hexp]
        exact ih.2.cons₂ _

/-! ### Sorting (claim C8, amended) -/

/-- Descending order on the (numeric) values of two entries. -/
def valGe (a b : InstanceData) : Prop := (valOf b).getD 0 ≤ (valOf a).getD 0

theorem insSorted_perm (x : InstanceData) (l : List InstanceData) :
    (insSorted x l).Perm (x :: l) := by
  induction l with
  | nil => rfl
  | cons y ys ih =>
    rw [insSorted]
    by_cases hc : cmpJS x y ≤ 0
    · rw [if_pos hc]
    · rw [if_neg hc]
      exact (ih.cons y).trans (List.Perm.swap x y ys)

theorem sortDesc_perm (l : List InstanceData) : (sortDesc l).Perm l := by
  induction l with
  | nil => rfl
  | cons x xs ih =>
    exact (insSorted_perm x (sortDesc xs)).trans (ih.cons x)

theorem insSorted_pairwise (x : InstanceData) (l : List InstanceData)
    (hx : (valOf x).isSome = true) (hl : ∀ d ∈ l, (valOf d).isSome = true)
    (h : l.Pairwise valGe) : (insSorted x l).Pairwise valGe := by
  induction l with
  | nil => simp [insSorted]
  | cons y ys ih =>
    obtain ⟨vx, hvx⟩ := Option.isSome_iff_exists.mp hx
    obtain ⟨vy, hvy⟩ := Option.isSome_iff_exists.mp (hl y (by simp))
    obtain ⟨hhead, htail⟩ := List.pairwise_cons.mp h
    rw [insSorted]
    by_cases hc : cmpJS x y ≤ 0
    · rw [if_pos hc]
      have hxy : valGe x y := by
        have h0 : vy - vx ≤ 0 := by
          have hc' := hc
          simp only [cmpJS, hvx, hvy] at hc'
          exact hc'
        simp only [valGe, hvx, hvy, Option.getD_some]
        omega
      refine List.Pairwise.cons ?_ h
      intro z hz
      rcases List.mem_cons.mp hz with rfl | hz
      · exact hxy
      · exact le_trans (hhead z hz) hxy
    · rw [if_neg hc]
      have hyx : valGe y x := by
        have h0 : 0 < vy - vx := by
          have hc' := lt_of_not_le hc
          simp only [cmpJS, hvx, hvy] at hc'
          exact hc'
        simp only [valGe, hvx, hvy, Option.getD_some]
        omega
      refine List.Pairwise.cons ?_ (ih (fun d hd => hl d (by simp [hd])) htail)
      intro z hz
      rcases List.mem_cons.mp ((insSorted_perm x ys).mem_iff.mp hz) with rfl | hz
      · exact hyx
      · exact hhead z hz

theorem sortDesc_pairwise (l : List InstanceData)
    (hl : ∀ d ∈ l, (valOf d).isSome = true) : (sortDesc l).Pairwise valGe := by
  induction l with
  | nil => simp [sortDesc]
  | cons x xs ih =>
    rw [sortDesc]
    refine insSorted_pairwise x (sortDesc xs) (hl x (by simp)) ?_ ?_
    · intro d hd
      exact hl d (by simp [(sortDesc_perm xs).mem_iff.mp hd])
    · exact ih (fun d hd => hl d (by simp [hd]))

theorem jsGeNum_some (o : Option Int) (n : Int) (h : jsGeNum o n = true) :
    ∃ v, o = some v ∧ n ≤ v := by
  cases o with
  | none => simp [jsGeNum] at h
  | some v =>
    refine ⟨v, rfl, ?_⟩
    simpa [jsGeNum] using h

/-- C8 (amended): for every cache state, `minValue`, and NON-NEGATIVE
`limit`, the query result contains only entries with a numeric value at least
`minValue`, is sorted in non-increasing value order, and has length at most
`limit`.  (For a negative `limit`, `slice(0, limit)` instead drops elements
from the end, and the length bound fails — see the counterexample.) -/
theorem claim_C8_amended (c : Cache) (mv lim : Int) (hlim : 0 ≤ lim) :
    (∀ d ∈ query c mv lim, ∃ v, valOf d = some v ∧ mv ≤ v) ∧
    (query c mv lim).Pairwise valGe ∧
    (query c mv lim).length ≤ lim.toNat := by
  have hq : query c mv lim =
      (sortDesc ((values c).filter fun d => jsGeNum (valOf d) mv)).take lim.toNat := by
    unfold query jsSliceTo
    rw [if_neg (by omega)]
  rw [hq]
  refine ⟨?_, ?_, ?_⟩
  · intro d hd
    have hd1 : d ∈ sortDesc ((values c).filter fun d => jsGeNum (valOf d) mv) :=
      List.take_subset _ _ hd
    have hd2 : d ∈ (values c).filter (fun d => jsGeNum (valOf d) mv) :=
      (sortDesc_perm _).mem_iff.mp hd1
    exact jsGeNum_some _ _ (List.mem_filter.mp hd2).2
  · refine List.Pairwise.sublist (List.take_sublist _ _) ?_
    refine sortDesc_pairwise _ ?_
    intro d hd
    obtain ⟨v, hv, _⟩ := jsGeNum_some _ _ (List.mem_filter.mp hd).2
    simp [hv]
  · exact List.length_take_le _ _

/-- Witness for C8 at a concrete two-entry cache with `limit = 1`. -/
theorem claim_C8_amended_witness :
    (0 : Int) ≤ 1 ∧
    ((∀ d ∈ query cacheTwo MIN_VALUE 1, ∃ v, valOf d = some v ∧ MIN_VALUE ≤ v) ∧
     (query cacheTwo MIN_VALUE 1).Pairwise valGe ∧
     (query cacheTwo MIN_VALUE 1).length ≤ (1 : Int).toNat) :=
  ⟨by decide, claim_C8_amended cacheTwo MIN_VALUE 1 (by decide)⟩

/-! ### Expiry is never consulted by the read paths (claim C1, amended) -/

/-- Rewrite an entry's cache-assigned receive time by an arbitrary function. -/
def setLU (f : Int → Int) (d : InstanceData) : InstanceData :=
  { d with lastUpdated := f d.lastUpdated }

/-- Rewrite every entry's receive time in the cache. -/
def mapLU (f : Int → Int) (c : Cache) : Cache :=
  c.map (fun kv => (kv.1, setLU f kv.2))

theorem insSorted_map_setLU (f : Int → Int) (x : InstanceData)
    (l : List InstanceData) :
    insSorted (setLU f x) (l.map (setLU f)) = (insSorted x l).map (setLU f) := by
  induction l with
  | nil => rfl
  | cons y ys ih =>
    have hcmp : cmpJS (setLU f x) (setLU f y) = cmpJS x y := rfl
    simp only [List.map_cons, insSorted, hcmp]
    by_cases hc : cmpJS x y ≤ 0
    · rw [if_pos hc, if_pos hc]
      rfl
    · rw [if_neg hc, if_neg hc]
      rw [ih]
      rfl

theorem sortDesc_map_setLU (f : Int → Int) (l : List InstanceData) :
    sortDesc (l.map (setLU f)) = (sortDesc l).map (setLU f) := by
  induction l with
  | nil => rfl
  | cons x xs ih =>
    simp only [List.map_cons, sortDesc, ih]
    exact insSorted_map_setLU f x (sortDesc xs)

theorem filter_map_setLU (f : Int → Int) (mv : Int) (l : List InstanceData) :
    (l.map (setLU f)).filter (fun d => jsGeNum (valOf d) mv) =
      (l.filter (fun d => jsGeNum (valOf d) mv)).map (setLU f) := by
  induction l with
  | nil => rfl
  | cons x xs ih =>
    have hval : valOf (setLU f x) = valOf x := rfl
    simp only [List.map_cons, List.filter_cons, hval]
    by_cases hx : jsGeNum (valOf x) mv
    · simp [hx, ih]
    · simp [hx, ih]

theorem jsSliceTo_map_setLU (f : Int → Int) (l : List InstanceData) (e : Int) :
    jsSliceTo (l.map (setLU f)) e = (jsSliceTo l e).map (setLU f) := by
  unfold jsSliceTo
  simp only [List.length_map]
  by_cases he : e < 0
  · rw [if_pos he, if_pos he, List.map_take]
  · rw [if_neg he, if_neg he, List.map_take]

theorem bestLoop_map_setLU (f : Int → Int) (l : List InstanceData)
    (bi : Option InstanceData) (bv : Int) :
    bestLoop (l.map (setLU f)) (bi.map (setLU f)) bv =
      (bestLoop l bi bv).map (setLU f) := by
  induction l generalizing bi bv with
  | nil => rfl
  | cons x xs ih =>
    have hval : valOf (setLU f x) = valOf x := rfl
    cases hx : valOf x with
    | none =>
      simp only [List.map_cons, bestLoop, hval, hx]
      exact ih bi bv
    | some v =>
      by_cases hbv : bv < v
      · simp only [List.map_cons, bestLoop, hval, hx, if_pos hbv]
        exact ih (some x) v
      · simp only [List.map_cons, bestLoop, hval, hx, if_neg hbv]
        exact ih bi bv

/-- C1 (amended): neither `query` nor `best` consults the cache-assigned
receive time `lastUpdated`: rewriting every entry's receive time by an
arbitrary function (for example making every entry arbitrarily older than
`INSTANCE_TTL`) changes nothing in which entries are returned or their order.
Expired entries are removed only by the sweep; between ticks they are
returned like any others. -/
theorem claim_C1_amended (c : Cache) (mv lim : Int) (f : Int → Int) :
    query (mapLU f c) mv lim = (query c mv lim).map (setLU f) ∧
    best (mapLU f c) = (best c).map (setLU f) := by
  constructor
  · have hvals : values (mapLU f c) = (values c).map (setLU f) := by
      simp [values, mapLU]
    unfold query
    rw [hvals, filter_map_setLU, sortDesc_map_setLU, jsSliceTo_map_setLU]
  · unfold best
    have hlen : (mapLU f c).length = c.length := by simp [mapLU]
    have hvals : values (mapLU f c) = (values c).map (setLU f) := by
      simp [values, mapLU]
    by_cases h0 : c.length = 0
    · rw [if_pos (by omega), if_pos h0]
      rfl
    · rw [if_neg (by omega), if_neg h0, hvals]
      have := bestLoop_map_setLU f (values c) none 0
      simpa using this

/-! ### Best (claim C7, amended) -/

theorem bestLoop_some_ne_none (l : List InstanceData) (d : InstanceData)
    (bv : Int) : bestLoop l (some d) bv ≠ none := by
  induction l generalizing d bv with
  | nil => simp [bestLoop]
  | cons x xs ih =>
    cases hx : valOf x with
    | none =>
      simp only [bestLoop, hx]
      exact ih d bv
    | some v =>
      by_cases hbv : bv < v
      · simp only [bestLoop, hx, if_pos hbv]
        exact ih x v
      · simp only [bestLoop, hx, if_neg hbv]
        exact ih d bv

theorem bestLoop_none_iff (l : List InstanceData) (bv : Int) :
    bestLoop l none bv = none ↔ ∀ d ∈ l, jsGtNum (valOf d) bv = false := by
  induction l generalizing bv with
  | nil => simp [bestLoop]
  | cons x xs ih =>
    cases hx : valOf x with
    | none =>
      simp only [bestLoop, hx, ih, List.mem_cons]
      constructor
      · intro h d hd
        rcases hd with rfl | hd
        · simp [jsGtNum, hx]
        · exact h d hd
      · intro h d hd
        exact h d (Or.inr hd)
    | some v =>
      by_cases hbv : bv < v
      · simp only [bestLoop, hx, if_pos hbv]
        constructor
        · intro h
          exact absurd h (bestLoop_some_ne_none xs x v)
        · intro h
          have := h x (by simp)
          rw [hx] at this
          simp [jsGtNum, hbv] at this
      · simp only [bestLoop, hx, if_neg hbv, ih, List.mem_cons]
        constructor
        · intro h d hd
          rcases hd with rfl | hd
          · simp [jsGtNum, hx, hbv]
          · exact h d hd
        · intro h d hd
          exact h d (Or.inr hd)

theorem bestLoop_some_spec (l : List InstanceData) (bi : Option InstanceData)
    (bv : Int) (d : InstanceData) (h : bestLoop l bi bv = some d) :
    (∃ v, valOf d = some v ∧ bv < v ∧
      (∀ d' ∈ l, jsGtNum (valOf d') v = false) ∧
      ∃ l₁ l₂, l = l₁ ++ d :: l₂ ∧ ∀ d' ∈ l₁, jsGeNum (valOf d') v = false) ∨
    (bi = some d ∧ ∀ d' ∈ l, jsGtNum (valOf d') bv = false) := by
  induction l generalizing bi bv with
  | nil =>
    right
    simp only [bestLoop] at h
    simp [h]
  | cons x xs ih =>
    cases hx : valOf x with
    | none =>
      rw [bestLoop, hx] at h
      rcases ih bi bv h with ⟨v, hvd, hbv, hall, l₁, l₂, heq, hpre⟩ | ⟨hbi, hall⟩
      · left
        refine ⟨v, hvd, hbv, ?_, x :: l₁, l₂, by simp [heq], ?_⟩
        · intro d' hd'
          rcases List.mem_cons.mp hd' with rfl | hd'
          · simp [jsGtNum, hx]
          · exact hall d' hd'
        · intro d' hd'
          rcases List.mem_cons.mp hd' with rfl | hd'
          · simp [jsGeNum, hx]
          · exact hpre d' hd'
      · right
        refine ⟨hbi, ?_⟩
        intro d' hd'
        rcases List.mem_cons.mp hd' with rfl | hd'
        · simp [jsGtNum, hx]
        · exact hall d' hd'
    | some vx =>
      by_cases hbvx : bv < vx
      · simp only [bestLoop, hx, if_pos hbvx] at h
        rcases ih (some x) vx h with ⟨v, hvd, hvxv, hall, l₁, l₂, heq, hpre⟩ | ⟨hbi, hall⟩
        · left
          refine ⟨v, hvd, lt_trans hbvx hvxv, ?_, x :: l₁, l₂, by simp [heq], ?_⟩
          · intro d' hd'
            rcases List.mem_cons.mp hd' with rfl | hd'
            · simp only [jsGtNum, hx]
              simpa using le_of_lt hvxv
            · exact hall d' hd'
          · intro d' hd'
            rcases List.mem_cons.mp hd' with rfl | hd'
            · simp only [jsGeNum, hx]
              simpa using hvxv
            · exact hpre d' hd'
        · left
          have hxd : x = d := Option.some_injective _ hbi
          subst hxd
          refine ⟨vx, hx, hbvx, ?_, [], xs, rfl, by simp⟩
          intro d' hd'
          rcases List.mem_cons.mp hd' with rfl | hd'
          · simp [jsGtNum, hx]
          · exact hall d' hd'
      · simp only [bestLoop, hx, if_neg hbvx] at h
        rcases ih bi bv h with ⟨v, hvd, hbv, hall, l₁, l₂, heq, hpre⟩ | ⟨hbi, hall⟩
        · left
          refine ⟨v, hvd, hbv, ?_, x :: l₁, l₂, by simp [heq], ?_⟩
          · intro d' hd'
            rcases List.mem_cons.mp hd' with rfl | hd'
            · simp only [jsGtNum, hx]
              simpa using (show ¬ v < vx by omega)
            · exact hall d' hd'
          · intro d' hd'
            rcases List.mem_cons.mp hd' with rfl | hd'
            · simp only [jsGeNum, hx]
              simpa using (show ¬ v ≤ vx by omega)
            · exact hpre d' hd'
        · right
          refine ⟨hbi, ?_⟩
          intro d' hd'
          rcases List.mem_cons.mp hd' with rfl | hd'
          · simp [jsGtNum, hx, hbvx]
          · exact hall d' hd'

/-- C7 (amended): `best` performs no expiry filtering.  It returns null
exactly when no entry at all has a numeric value above 0 (in particular on an
empty cache, and for entries whose value is absent); otherwise it returns the
first entry in storage order whose value no entry strictly exceeds — the
strict-greater scan, so among equal maxima the earliest-scanned entry wins. -/
theorem claim_C7_amended (c : Cache) :
    (best c = none ↔ ∀ d ∈ values c, jsGtNum (valOf d) 0 = false) ∧
    (∀ d, best c = some d →
      ∃ v, valOf d = some v ∧ 0 < v ∧
        (∀ d' ∈ values c, jsGtNum (valOf d') v = false) ∧
        ∃ l₁ l₂, values c = l₁ ++ d :: l₂ ∧ ∀ d' ∈ l₁, jsGeNum (valOf d') v = false) := by
  unfold best
  by_cases h0 : c.length = 0
  · rw [if_pos h0]
    have hc : c = [] := List.length_eq_zero.mp h0
    subst hc
    simp [values]
  · rw [if_neg h0]
    constructor
    · exact bestLoop_none_iff (values c) 0
    · intro d hd
      rcases bestLoop_some_spec (values c) none 0 d hd with h | ⟨hbi, _⟩
      · exact h
      · exact absurd hbi (by simp)

/-! ### Key aliasing (claim C4, amended) -/

theorem append_sep_inj (x : Char) (a : List Char) :
    ∀ (b u v : List Char), x ∉ a → x ∉ b →
      a ++ x :: u = b ++ x :: v → a = b ∧ u = v := by
  induction a with
  | nil =>
    intro b u v _ hb h
    cases b with
    | nil =>
      simp only [List.nil_append] at h
      injection h with _ huv
      exact ⟨rfl, huv⟩
    | cons y bs =>
      simp only [List.nil_append, List.cons_append, List.cons.injEq] at h
      exact absurd (h.1 ▸ List.mem_cons_self y bs) (h.1 ▸ hb)
  | cons z as ih =>
    intro b u v ha hb h
    cases b with
    | nil =>
      simp only [List.cons_append, List.nil_append, List.cons.injEq] at h
      exact absurd (h.1 ▸ List.mem_cons_self z as) (fun hm => ha (by simp [h.1]))
    | cons y bs =>
      simp only [List.cons_append, List.cons.injEq] at h
      have ha' : x ∉ as := fun hm => ha (List.mem_cons_of_mem _ hm)
      have hb' : x ∉ bs := fun hm => hb (List.mem_cons_of_mem _ hm)
      obtain ⟨hab, huv⟩ := ih bs u v ha' hb' h.2
      exact ⟨by rw [h.1, hab], huv⟩

/-- C4 (amended): the composite key `placeKey + "_" + instanceKey` is
injective only on pairs whose components keep the separator decodable; in
particular it is injective whenever neither `placeKey` contains an
underscore.  (Without that restriction distinct pairs can alias, see the
counterexample.) -/
theorem claim_C4_amended (p₁ i₁ p₂ i₂ : String)
    (h₁ : '_' ∉ p₁.data) (h₂ : '_' ∉ p₂.data)
    (h : jsKey p₁ i₁ = jsKey p₂ i₂) : p₁ = p₂ ∧ i₁ = i₂ := by
  have hd : p₁.data ++ '_' :: i₁.data = p₂.data ++ '_' :: i₂.data := by
    have hcongr := congrArg String.data h
    simpa [jsKey, String.data_append] using hcongr
  obtain ⟨hp, hi⟩ := append_sep_inj '_' p₁.data p₂.data i₁.data i₂.data h₁ h₂ hd
  exact ⟨String.ext hp, String.ext hi⟩

/-- Witness for C4 (amended) at underscore-free place keys. -/
theorem claim_C4_amended_witness : ("a" : String) = "a" ∧ ("b" : String) = "b" :=
  claim_C4_amended "a" "b" "a" "b" (by decide) (by decide) rfl

end PetLogger
